import Mathlib

/-!
Verification of the parallel-corpus batching and feeding pipeline of
njunmt/data/text_inputter.py: the bucketing sorter, the batch assembler's
device partition, the single-corpus batcher, the streaming pair batcher
and the in-memory pair batcher, together with their configuration checks.

Sequences are token-id lists.  A line reader is modelled as the list of its
remaining lines: an entry `some s` is a real line, `none` is a malformed
line that `next()` reports as Python `None` (skipped), and the end of the
list is the end-of-stream sentinel (the empty string in the Python code).
-/

abbrev TokSeq := List Nat

/-- Read stream for one corpus: `some s` a real line, `none` a skipped line,
end of list = end-of-stream sentinel. -/
abbrev RdStream := List (Option TokSeq)

/-! ### Bucketing sorter (`do_bucketing`, text_inputter.py lines 32-47)

The Python code computes `tidx = tlen.argsort()` with `numpy`'s default sort
kind and then reorders the pivot and every other list by `tidx`.  The sort
kernel is external library code; it is modelled as a parameter `impl`
guaranteed only to return some permutation of the index range that sorts the
lengths ascending (numpy's documented contract for `argsort`; the default
quicksort kind is documented as not stable).  `argsortStable` below is one
concrete conforming implementation, used to execute the model. -/

/-- Conformance predicate for an argsort result: `tidx` is a permutation of
`range tlen.length` and reading `tlen` along `tidx` is non-decreasing. -/
def sortsLen (tlen : List Nat) (tidx : List Nat) : Prop :=
  tidx.Perm (List.range tlen.length) ∧
    (tidx.map (fun i => tlen.getD i 0)).Sorted (· ≤ ·)

/-- Index comparison used by the stable reference argsort: order by length,
breaking ties by the original index. -/
def lenLe (tlen : List Nat) (i j : Nat) : Prop :=
  tlen.getD i 0 < tlen.getD j 0 ∨ (tlen.getD i 0 = tlen.getD j 0 ∧ i ≤ j)

instance (tlen : List Nat) : DecidableRel (lenLe tlen) := fun i j => by
  unfold lenLe; infer_instance

instance (tlen : List Nat) : IsTotal Nat (lenLe tlen) where
  total i j := by
    unfold lenLe
    rcases Nat.lt_trichotomy (tlen.getD i 0) (tlen.getD j 0) with h | h | h
    · exact Or.inl (Or.inl h)
    · rcases Nat.le_total i j with hij | hij
      · exact Or.inl (Or.inr ⟨h, hij⟩)
      · exact Or.inr (Or.inr ⟨h.symm, hij⟩)
    · exact Or.inr (Or.inl h)

instance (tlen : List Nat) : IsTrans Nat (lenLe tlen) where
  trans i j k hij hjk := by
    unfold lenLe at *
    rcases hij with h1 | ⟨e1, le1⟩
    · rcases hjk with h2 | ⟨e2, _⟩
      · exact Or.inl (h1.trans h2)
      · exact Or.inl (e2 ▸ h1)
    · rcases hjk with h2 | ⟨e2, le2⟩
      · exact Or.inl (e1 ▸ h2)
      · exact Or.inr ⟨e1.trans e2, le1.trans le2⟩

/-- Stable reference argsort: sort the index range by length with index
tie-breaking (one conforming instance of numpy's argsort contract). -/
def argsortStable (tlen : List Nat) : List Nat :=
  List.insertionSort (lenLe tlen) (List.range tlen.length)

theorem argsortStable_sortsLen (tlen : List Nat) : sortsLen tlen (argsortStable tlen) := by
  constructor
  · exact List.perm_insertionSort (lenLe tlen) (List.range tlen.length)
  · have hs : (argsortStable tlen).Sorted (lenLe tlen) :=
      List.sorted_insertionSort (lenLe tlen) (List.range tlen.length)
    refine List.Pairwise.map _ (fun i j hij => ?_) hs
    rcases hij with h | ⟨h, _⟩
    · exact Nat.le_of_lt h
    · exact Nat.le_of_eq h

/-- Reorder `l` along the index list `tidx` (the comprehension
`[l[i] for i in tidx]` in the Python code; out-of-range indices, which a
conforming argsort never produces, yield the default). -/
def applyIdx (tidx : List Nat) (l : List TokSeq) : List TokSeq :=
  tidx.map (fun i => l.getD i [])

/-- Translation of `do_bucketing(pivot, *args)` (lines 32-47): sort the pivot
by element length via the argsort kernel `impl` and reorder every list in
`args` by the same index list. -/
def do_bucketing (impl : List Nat → List Nat) (pivot : List TokSeq) (args : List (List TokSeq)) :
    List TokSeq × List (List TokSeq) :=
  let tlen := pivot.map List.length
  let tidx := impl tlen
  (applyIdx tidx pivot, args.map (fun ele => applyIdx tidx ele))

/-! ### Batch assembler device partition (`pack_feed_dict`, lines 50-94) -/

/-- Per-device sample count `n_samples_per_gpu` (lines 70-73):
`B // D`, plus one when the division has a remainder (= ceil(B/D)). -/
def nSamplesPerGpu (B D : Nat) : Nat :=
  B / D + (if B % D > 0 then 1 else 0)

/-- Sequences assigned to device slot `j`: the slice
`d[j*per : (j+1)*per]` (line 80). -/
def slotSeqs (d : List TokSeq) (D j : Nat) : List TokSeq :=
  (d.drop (j * nSamplesPerGpu d.length D)).take (nSamplesPerGpu d.length D)

/-- Number of sequences fed to device slot `j` (`_feed_batchs`, lines 75-83):
zero, contributing no feed-dict entries, when the slot's start offset is past
the data; otherwise the length of the slot's slice. -/
def feedBatchCount (d : List TokSeq) (D j : Nat) : Nat :=
  if d.length ≤ j * nSamplesPerGpu d.length D then 0 else (slotSeqs d D j).length

/-- The `parallels` list recorded in the feed dict (lines 85-88): the
per-slot counts over all `D` device slots. -/
def parallelCounts (d : List TokSeq) (D : Nat) : List Nat :=
  (List.range D).map (feedBatchCount d D)

/-! ### Single-corpus batcher (`TextLineInputter`, lines 110-189) -/

/-- Drain loop of `_make_feeding_data_from` (lines 150-157): skip `None`
lines, stop at the end sentinel, collect the rest in order. -/
def drainReader : RdStream → List TokSeq
  | [] => []
  | some s :: rest => s :: drainReader rest
  | none :: rest => drainReader rest

/-- Batch-slicing loop of `_make_feeding_data_from` (lines 159-168):
contiguous chunks of `bs` in order, final chunk possibly shorter.  The
Python loop never terminates when `batch_size = 0`; that case is guarded
off to keep the function total. -/
def makeBatches (bs : Nat) (l : List TokSeq) : List (List TokSeq) :=
  if bs = 0 then []
  else if l = [] then []
  else l.take bs :: makeBatches bs (l.drop bs)
termination_by l.length
decreasing_by
  rename_i h0 hne
  have h1 : 0 < bs := Nat.pos_of_ne_zero h0
  have h2 : 0 < l.length := List.length_pos.mpr hne
  simp only [List.length_drop]
  omega

/-- Translation of `TextLineInputter._make_feeding_data_from` for one reader
(lines 135-169), up to the feed-dict packing of each chunk. -/
def makeFeedingDataFrom (bs : Nat) (stream : RdStream) : List (List TokSeq) :=
  makeBatches bs (drainReader stream)

/-! ### Parallel inputter configuration (`ParallelTextInputter.__init__`, lines 195-248) -/

/-- Configuration of a `ParallelTextInputter` after construction. -/
structure IterConfig where
  batchSize : Nat
  batchTokensSize : Option Nat
  shuffleEveryEpoch : Option String
  fillFullBatch : Bool
  bucketing : Bool
  cacheSize : Nat
deriving Repr, DecidableEq

/-- Python truthiness of the `shuffle_every_epoch` tag (a string or `None`):
truthy iff present and non-empty. -/
def optTruthy : Option String → Bool
  | none => false
  | some s => s ≠ ""

/-- Translation of `ParallelTextInputter.__init__` (lines 195-248): rejects
the configuration when both `batch_size` and `batch_tokens_size` are absent;
otherwise computes the cache size (`batch_size * 128`, or
`batch_tokens_size * 6` with `batch_size` defaulting to 32). -/
def mkParallelConfig (batch_size batch_tokens_size : Option Nat)
    (shuffle_every_epoch : Option String) (fill_full_batch bucketing : Bool) :
    Except String IterConfig :=
  if batch_size = none ∧ batch_tokens_size = none then
    .error "Either batch_size or batch_tokens_size should be provided."
  else
    match batch_tokens_size with
    | none =>
        .ok { batchSize := batch_size.getD 0
              batchTokensSize := none
              shuffleEveryEpoch := shuffle_every_epoch
              fillFullBatch := fill_full_batch
              bucketing := bucketing
              cacheSize := batch_size.getD 0 * 128 }
    | some t =>
        .ok { batchSize := batch_size.getD 32
              batchTokensSize := some t
              shuffleEveryEpoch := shuffle_every_epoch
              fillFullBatch := fill_full_batch
              bucketing := bucketing
              cacheSize := t * 6 }

/-! ### Streaming pair batcher (`_BigParallelDataIterator`, lines 312-428) -/

/-- State of the streaming iterator.  The two readers are modelled by their
underlying line list (`featBase`/`labBase`, replaced on a shuffling reset)
and the not-yet-read suffix (`featRem`/`labRem`).  `resets` instruments the
number of `_reset()` invocations and has no effect on behaviour. -/
structure IterState where
  featBase : RdStream
  labBase : RdStream
  featRem : RdStream
  labRem : RdStream
  featBuf : List TokSeq
  labBuf : List TokSeq
  featLenBuf : List Nat
  labLenBuf : List Nat
  endOfData : Bool
  resets : Nat
deriving Repr, DecidableEq

/-- Reorder a reader's line list by the index list `π` (a shuffle permutation;
out-of-range indices yield a skipped line). -/
def permuteBy (π : List Nat) (l : RdStream) : RdStream :=
  π.map (fun k => l.getD k none)

/-- Modelled from the spec: `LineReader.reset(do_shuffle, shuffle_to_file,
argsort_index)` is external reader code (njunmt/data/data_reader.py is not in
the sources).  Per the spec it rewinds the reader and, when shuffling is
requested, reshuffles its source and returns the permutation used so that the
second reader can be shuffled identically.  `_reset` (lines 339-351) invokes
it on the features reader and passes the returned permutation `π` to the
labels reader, so both sides are permuted by the same `π`. -/
def resetState (cfg : IterConfig) (π : List Nat) (s : IterState) : IterState :=
  if optTruthy cfg.shuffleEveryEpoch then
    let fB := permuteBy π s.featBase
    let lB := permuteBy π s.labBase
    { s with featBase := fB, labBase := lB, featRem := fB, labRem := lB,
             resets := s.resets + 1 }
  else
    { s with featRem := s.featBase, labRem := s.labBase, resets := s.resets + 1 }

/-- Translation of `_BigParallelDataIterator.__init__` (lines 315-334): copy
the parent's attributes, invoke `_reset()`, then start with empty buffers and
a cleared end-of-data flag. -/
def initIterState (cfg : IterConfig) (π : List Nat) (f l : RdStream) : IterState :=
  resetState cfg π
    { featBase := f, labBase := l, featRem := f, labRem := l,
      featBuf := [], labBuf := [], featLenBuf := [], labLenBuf := [],
      endOfData := false, resets := 0 }

/-- Refill loop of `next` (lines 365-375): while fewer than `cacheSize`
sequences are counted, pull one line from each reader; stop at either end
sentinel (both readers' `next()` are called before the check, so the other
side still consumes a line); skip the pair when either line is `None`;
otherwise append the pair to both buffers.  Returns the remaining streams
and the two buffers. -/
def refill (cacheSize : Nat) : RdStream → RdStream → Nat → List TokSeq → List TokSeq →
    RdStream × RdStream × List TokSeq × List TokSeq
  | some ss :: fR, some tt :: lR, cnt, fbuf, lbuf =>
      if cnt < cacheSize then refill cacheSize fR lR (cnt + 1) (fbuf ++ [ss]) (lbuf ++ [tt])
      else (some ss :: fR, some tt :: lR, fbuf, lbuf)
  | some s :: fR, none :: lR, cnt, fbuf, lbuf =>
      if cnt < cacheSize then refill cacheSize fR lR cnt fbuf lbuf
      else (some s :: fR, none :: lR, fbuf, lbuf)
  | none :: fR, some t :: lR, cnt, fbuf, lbuf =>
      if cnt < cacheSize then refill cacheSize fR lR cnt fbuf lbuf
      else (none :: fR, some t :: lR, fbuf, lbuf)
  | none :: fR, none :: lR, cnt, fbuf, lbuf =>
      if cnt < cacheSize then refill cacheSize fR lR cnt fbuf lbuf
      else (none :: fR, none :: lR, fbuf, lbuf)
  | f :: fR, [], cnt, fbuf, lbuf =>
      if cnt < cacheSize then (fR, [], fbuf, lbuf) else (f :: fR, [], fbuf, lbuf)
  | [], b :: lR, cnt, fbuf, lbuf =>
      if cnt < cacheSize then ([], lR, fbuf, lbuf) else ([], b :: lR, fbuf, lbuf)
  | [], [], _, fbuf, lbuf => ([], [], fbuf, lbuf)

/-- Refill phase of `next` (lines 364-386): when the buffer is below
`batch_size`, refill from the readers; report a stop (`true`) when the
refilled buffer is empty; otherwise optionally bucket the cache by label
length, carrying features along by the same index list, and recompute the
length buffers. -/
def refillPhase (cfg : IterConfig) (impl : List Nat → List Nat) (s : IterState) :
    Bool × IterState :=
  if s.featBuf.length < cfg.batchSize then
    let r := refill cfg.cacheSize s.featRem s.labRem s.featBuf.length s.featBuf s.labBuf
    let fbuf := r.2.2.1
    let lbuf := r.2.2.2
    if fbuf.length = 0 ∨ lbuf.length = 0 then
      (true, { s with featRem := r.1, labRem := r.2.1, featBuf := fbuf, labBuf := lbuf })
    else
      let p := if cfg.bucketing then do_bucketing impl lbuf [fbuf] else (lbuf, [fbuf])
      let lbuf2 := p.1
      let fbuf2 := p.2.getD 0 []
      (false, { s with featRem := r.1, labRem := r.2.1, featBuf := fbuf2, labBuf := lbuf2,
                       featLenBuf := fbuf2.map List.length,
                       labLenBuf := lbuf2.map List.length })
  else (false, s)

/-- Token-budget growth loop (lines 395-404), recursing over the length
buffers beyond the current prefix.  Stops as soon as either running sum
reaches the budget, either margin to the budget drops below 20, or the
feature length buffer is exhausted; otherwise includes one more sequence.
(The Python code indexes the label length buffer at the same position it
checks only for the feature buffer; a missing label entry is modelled as 0
where Python would raise, unreachable under the asserted equal-length
invariant.) -/
def growLoop (T : Nat) : List Nat → List Nat → Nat → Nat → Nat → Nat
  | fRest, lRest, lbs, sumS, sumT =>
    if T ≤ sumS ∨ T ≤ sumT then lbs
    else if T - sumS < 20 ∨ T - sumT < 20 then lbs
    else
      match fRest with
      | [] => lbs
      | f0 :: fR => growLoop T fR lRest.tail (lbs + 1) (sumS + f0) (sumT + lRest.headD 0)

/-- Determination of `local_batch_size` (lines 391-404): `batch_size` when
batching by count; otherwise grow from `batch_size` under the token budget,
starting from the sums of the first `batch_size` feature/label lengths. -/
def localBatchSize (B : Nat) (bts : Option Nat) (flens llens : List Nat) : Nat :=
  match bts with
  | none => B
  | some T =>
      growLoop T (flens.drop B) (llens.drop B) B ((flens.take B).sum) ((llens.take B).sum)

/-- Translation of `_BigParallelDataIterator.next` (lines 357-428).  Returns
the emitted (features, labels) pair, or `none` for `StopIteration`, together
with the successor state.  `π` is the shuffle permutation the features reader
would produce if this pull resets with shuffling enabled. -/
def nextBatch (cfg : IterConfig) (impl : List Nat → List Nat) (π : List Nat)
    (s : IterState) : Option (List TokSeq × List TokSeq) × IterState :=
  if s.endOfData then
    (none, resetState cfg π { s with endOfData := false })
  else
    let r := refillPhase cfg impl s
    let s1 := r.2
    if r.1 then
      (none, resetState cfg π { s1 with endOfData := false })
    else if cfg.fillFullBatch ∧ s1.featBuf.length < cfg.batchSize then
      (none, resetState cfg π { s1 with endOfData := false })
    else
      let lbs := localBatchSize cfg.batchSize cfg.batchTokensSize s1.featLenBuf s1.labLenBuf
      let features := s1.featBuf.take lbs
      let labels := s1.labBuf.take lbs
      let s2 :=
        if features.length < lbs then
          { s1 with featBuf := [], labBuf := [], featLenBuf := [], labLenBuf := [] }
        else
          { s1 with featBuf := s1.featBuf.drop lbs, labBuf := s1.labBuf.drop lbs,
                    featLenBuf := s1.featLenBuf.drop lbs, labLenBuf := s1.labLenBuf.drop lbs }
      if features.length = 0 ∨ labels.length = 0 then
        (none, resetState cfg π { s2 with endOfData := false })
      else
        (some (features, labels), s2)

/-- States the iterator can reach from `s` by any number of pulls, with an
arbitrary shuffle permutation at each pull. -/
inductive Reaches (cfg : IterConfig) (impl : List Nat → List Nat) : IterState → IterState → Prop
  | refl (s : IterState) : Reaches cfg impl s s
  | step (s s' : IterState) (π : List Nat) :
      Reaches cfg impl s s' → Reaches cfg impl s ((nextBatch cfg impl π s').2)

/-! ### In-memory pair batcher (`_small_parallel_data`, lines 250-285) -/

/-- Drain loop of `_small_parallel_data` (lines 258-268): pull one line from
each reader, stop at either end sentinel, skip pairs with a `None` side,
append the rest pairwise. -/
def smallDrain : RdStream → RdStream → List TokSeq → List TokSeq → List TokSeq × List TokSeq
  | some ss :: fR, some tt :: lR, fbuf, lbuf => smallDrain fR lR (fbuf ++ [ss]) (lbuf ++ [tt])
  | some _ :: fR, none :: lR, fbuf, lbuf => smallDrain fR lR fbuf lbuf
  | none :: fR, some _ :: lR, fbuf, lbuf => smallDrain fR lR fbuf lbuf
  | none :: fR, none :: lR, fbuf, lbuf => smallDrain fR lR fbuf lbuf
  | _, _, fbuf, lbuf => (fbuf, lbuf)

/-- Batch-slicing loop of `_small_parallel_data` (lines 275-284): chunks of
`batch_size` cut from both lists in lockstep, driven by the features list.
The Python loop never terminates when `batch_size = 0`; that case is guarded
off to keep the function total. -/
def chunkBatches (bs : Nat) (ss tt : List TokSeq) : List (List TokSeq × List TokSeq) :=
  if bs = 0 then []
  else if ss = [] then []
  else (ss.take bs, tt.take bs) :: chunkBatches bs (ss.drop bs) (tt.drop bs)
termination_by ss.length
decreasing_by
  rename_i h0 hne
  have h1 : 0 < bs := Nat.pos_of_ne_zero h0
  have h2 : 0 < ss.length := List.length_pos.mpr hne
  simp only [List.length_drop]
  omega

/-- Translation of `ParallelTextInputter._small_parallel_data` (lines
250-285), up to the feed-dict packing of each chunk: drain both readers,
optionally bucket once by label length, then slice into fixed-size batches. -/
def smallParallelData (cfg : IterConfig) (impl : List Nat → List Nat)
    (f l : RdStream) : List (List TokSeq × List TokSeq) :=
  let d := smallDrain f l [] []
  let p := if cfg.bucketing then do_bucketing impl d.2 [d.1] else (d.2, [d.1])
  let tt := p.1
  let ss := p.2.getD 0 []
  chunkBatches cfg.batchSize ss tt

/-- Result of `make_feeding_data`: either the eagerly materialized in-memory
batches or the initial state of the streaming iterator. -/
inductive FeedData where
  | inMemory : List (List TokSeq × List TokSeq) → FeedData
  | streaming : IterState → FeedData
deriving Repr, DecidableEq

/-- Translation of `ParallelTextInputter.make_feeding_data` (lines 287-310):
with `in_memory` it rejects `fill_full_batch` and a truthy
`shuffle_every_epoch`, then runs the in-memory pair batcher; otherwise it
constructs the streaming iterator. -/
def makeFeedingData (cfg : IterConfig) (impl : List Nat → List Nat) (π : List Nat)
    (in_memory : Bool) (f l : RdStream) : Except String FeedData :=
  if in_memory && cfg.fillFullBatch then
    .error "fill_full_batch for ParallelTextInputter is available for training data only."
  else if in_memory && optTruthy cfg.shuffleEveryEpoch then
    .error "shuffle_every_epoch for ParallelTextInputter is available for training data only."
  else if in_memory then
    .ok (.inMemory (smallParallelData cfg impl f l))
  else
    .ok (.streaming (initIterState cfg π f l))

/-! ### Helper lemmas -/

theorem length_getD_eq : ∀ (l : List TokSeq) (i : Nat),
    (l.getD i []).length = (l.map List.length).getD i 0
  | [], i => by simp
  | _ :: _, 0 => by simp
  | _ :: l, i + 1 => by
      simpa [List.getD_cons_succ] using length_getD_eq l i

theorem applyIdx_length (tidx : List Nat) (l : List TokSeq) :
    (applyIdx tidx l).length = tidx.length := by
  simp [applyIdx]

theorem sortsLen_length {tlen tidx : List Nat} (h : sortsLen tlen tidx) :
    tidx.length = tlen.length := by
  simpa using h.1.length_eq

theorem sortsLen_mem_lt {tlen tidx : List Nat} (h : sortsLen tlen tidx) :
    ∀ i ∈ tidx, i < tlen.length := by
  intro i hi
  have := h.1.mem_iff.mp hi
  simpa using this

/-- C4 counterexample: the bucketing sorter is only as stable as the external
argsort kernel, and numpy's default quicksort kind is documented as not
stable.  `implBad` is a kernel satisfying the full argsort contract
(`sortsLen`), yet `do_bucketing` built on it swaps two equal-length pivot
elements, so the claimed stability ("elements of equal length keep their
original relative order") does not follow from the code. -/
def implBad : List Nat → List Nat :=
  fun tlen => if tlen = [1, 1] then [1, 0] else argsortStable tlen

theorem implBad_sortsLen : ∀ tlen, sortsLen tlen (implBad tlen) := by
  intro tlen
  by_cases h : tlen = [1, 1]
  · subst h
    constructor
    · simp only [implBad, if_pos rfl]
      decide
    · simp only [implBad, if_pos rfl]
      decide
  · simpa only [implBad, if_neg h] using argsortStable_sortsLen tlen

/-- C4 (counterexample to stability): a kernel satisfying the argsort
contract under which `do_bucketing` reorders two equal-length pivot
elements, refuting the claim that the permutation is always stable. -/
theorem bucketing_unstable_for_conforming_argsort :
    (∀ tlen, sortsLen tlen (implBad tlen)) ∧
    (([[1], [2]] : List TokSeq).map List.length = [1, 1]) ∧
    (do_bucketing implBad [[1], [2]] []).1 = [[2], [1]] := by
  refine ⟨implBad_sortsLen, rfl, ?_⟩
  rfl

/-- C4 (amended): for every argsort kernel satisfying numpy's argsort
contract, every non-empty pivot list and every tuple of parallel lists of the
pivot's length, `do_bucketing` returns the pivot reordered into non-decreasing
order of element length by a single index permutation applied identically to
every other list, and all outputs have the same lengths as the inputs (the
function is pure; stability of the permutation is NOT guaranteed, see
`bucketing_unstable_for_conforming_argsort`). -/
theorem bucketing_sorter_spec (impl : List Nat → List Nat)
    (himpl : ∀ tlen, sortsLen tlen (impl tlen))
    (pivot : List TokSeq) (args : List (List TokSeq))
    (hpar : ∀ a ∈ args, a.length = pivot.length) :
    ((do_bucketing impl pivot args).1.length = pivot.length) ∧
    ((do_bucketing impl pivot args).2.length = args.length) ∧
    (∀ j, j < args.length →
      ((do_bucketing impl pivot args).2.getD j []).length = (args.getD j []).length) ∧
    (((do_bucketing impl pivot args).1.map List.length).Sorted (· ≤ ·)) ∧
    (∃ tidx, sortsLen (pivot.map List.length) tidx ∧
      (do_bucketing impl pivot args).1 = applyIdx tidx pivot ∧
      ∀ j, j < args.length →
        (do_bucketing impl pivot args).2.getD j [] = applyIdx tidx (args.getD j [])) := by
  have hlen := sortsLen_length (himpl (pivot.map List.length))
  have hgd : ∀ j, j < args.length →
      (do_bucketing impl pivot args).2.getD j [] =
        applyIdx (impl (pivot.map List.length)) (args.getD j []) := by
    intro j hj
    have hh : args[j]? = some args[j] := List.getElem?_eq_getElem hj
    simp only [do_bucketing]
    rw [List.getD_eq_getElem?_getD, List.getD_eq_getElem?_getD, List.getElem?_map, hh]
    rfl
  refine ⟨?_, ?_, ?_, ?_, impl (pivot.map List.length), himpl _, rfl, hgd⟩
  · simp [do_bucketing, applyIdx_length, hlen]
  · simp [do_bucketing]
  · intro j hj
    have hm : args.getD j [] ∈ args := by
      rw [List.getD_eq_getElem?_getD, List.getElem?_eq_getElem hj]
      exact List.getElem_mem hj
    rw [hgd j hj, applyIdx_length]
    calc (impl (pivot.map List.length)).length
        = (pivot.map List.length).length := hlen
      _ = pivot.length := List.length_map _ _
      _ = (args.getD j []).length := (hpar _ hm).symm
  · have hmap : ((do_bucketing impl pivot args).1.map List.length) =
        (impl (pivot.map List.length)).map (fun i => (pivot.map List.length).getD i 0) := by
      simp only [do_bucketing, applyIdx, List.map_map]
      refine List.map_congr_left (fun i _ => ?_)
      simp only [Function.comp]
      cases h : pivot[i]? <;>
        simp [List.getD_eq_getElem?_getD, List.getElem?_map, h]
    rw [hmap]
    exact (himpl (pivot.map List.length)).2

/-- C4 witness: the amended theorem applied to the stable reference kernel on
a concrete pivot and one parallel list. -/
theorem bucketing_sorter_applied :
    ((do_bucketing argsortStable [[5, 5], [4]] [[[9], [8]]]).1.map List.length).Sorted (· ≤ ·) :=
  (bucketing_sorter_spec argsortStable argsortStable_sortsLen [[5, 5], [4]] [[[9], [8]]]
    (by intro a ha; simp at ha; simp [ha])).2.2.2.1

/-! ### Device partition lemmas (C6) -/

theorem feedBatchCount_eq_length (d : List TokSeq) (D j : Nat) :
    feedBatchCount d D j = (slotSeqs d D j).length := by
  unfold feedBatchCount
  split
  · rename_i h
    simp [slotSeqs, List.drop_eq_nil_of_le h]
  · rfl

theorem slot_flatten (d : List TokSeq) (per : Nat) :
    ∀ k, ((List.range k).map (fun j => (d.drop (j * per)).take per)).flatten =
      d.take (k * per)
  | 0 => by simp
  | k + 1 => by
      rw [List.range_succ, List.map_append, List.flatten_append, slot_flatten d per k]
      simp only [List.map_cons, List.map_nil, List.flatten_cons, List.flatten_nil,
        List.append_nil]
      rw [Nat.succ_mul, List.take_add]

theorem mul_per_ge (B D : Nat) (hD : 1 ≤ D) : B ≤ D * nSamplesPerGpu B D := by
  unfold nSamplesPerGpu
  have hmod := Nat.mod_lt B hD
  have hdiv := Nat.div_add_mod B D
  split
  · rename_i h
    have : D * (B / D + 1) = D * (B / D) + D := by ring
    omega
  · rename_i h
    have h0 : B % D = 0 := by omega
    have : D * (B / D + 0) = D * (B / D) := by ring
    omega

/-- C6: for every batch of `B ≥ 1` sequences and every positive number `D` of
device input-field slots, the assembler assigns contiguous blocks by position
(the slot slices flatten back to the batch), each slot receives at most
`ceil(B/D)` sequences, each slot receives exactly `ceil(B/D)` unless it is a
trailing slot (every slot after a non-full one receives zero), slots past the
data receive zero and contribute no entries, and the recorded per-slot counts
sum to `B`.  (With `D = 0` the Python code raises `ZeroDivisionError`.) -/
theorem device_partition_spec (d : List TokSeq) (D : Nat) (hD : 1 ≤ D)
    (hB : 1 ≤ d.length) :
    (((List.range D).map (slotSeqs d D)).flatten = d) ∧
    ((parallelCounts d D).sum = d.length) ∧
    (∀ j, j < D → feedBatchCount d D j ≤ nSamplesPerGpu d.length D) ∧
    (∀ j, j < D → d.length ≤ j * nSamplesPerGpu d.length D →
      feedBatchCount d D j = 0 ∧ slotSeqs d D j = []) ∧
    (∀ j k, j < k → k < D → feedBatchCount d D j < nSamplesPerGpu d.length D →
      feedBatchCount d D k = 0) := by
  have hperpos : 1 ≤ nSamplesPerGpu d.length D := by
    unfold nSamplesPerGpu
    rcases Nat.lt_or_ge d.length D with h | h
    · have hmod : d.length % D = d.length := Nat.mod_eq_of_lt h
      have hgt : d.length % D > 0 := by omega
      rw [if_pos hgt]
      exact Nat.le_add_left 1 _
    · have h1 : 1 ≤ d.length / D := (Nat.one_le_div_iff (by omega)).mpr h
      split
      · exact Nat.le_trans h1 (Nat.le_add_right _ _)
      · simpa using h1
  have hflat : ((List.range D).map (slotSeqs d D)).flatten = d := by
    have h1 := slot_flatten d (nSamplesPerGpu d.length D) D
    have h2 : (List.range D).map (slotSeqs d D) =
        (List.range D).map (fun j =>
          (d.drop (j * nSamplesPerGpu d.length D)).take (nSamplesPerGpu d.length D)) := rfl
    rw [h2, h1]
    exact List.take_of_length_le (mul_per_ge d.length D hD)
  refine ⟨hflat, ?_, ?_, ?_, ?_⟩
  · have h1 : parallelCounts d D = (List.range D).map (fun j => (slotSeqs d D j).length) :=
      List.map_congr_left (fun j _ => feedBatchCount_eq_length d D j)
    have h2 : (List.range D).map (fun j => (slotSeqs d D j).length) =
        ((List.range D).map (slotSeqs d D)).map List.length := by
      rw [List.map_map]; rfl
    rw [h1, h2, ← List.length_flatten, hflat]
  · intro j _
    rw [feedBatchCount_eq_length]
    simp [slotSeqs]
  · intro j _ hj
    refine ⟨?_, ?_⟩
    · unfold feedBatchCount
      rw [if_pos hj]
    · simp [slotSeqs, List.drop_eq_nil_of_le hj]
  · intro j k hjk hkD hlt
    set per := nSamplesPerGpu d.length D with hper
    have hj0 : d.length < (j + 1) * per := by
      rw [feedBatchCount_eq_length] at hlt
      by_cases hpast : d.length ≤ j * per
      · have hexp : (j + 1) * per = j * per + per := by ring
        omega
      · have hlen : (slotSeqs d D j).length = min per (d.length - j * per) := by
          simp [slotSeqs, List.length_take, List.length_drop, Nat.min_comm]
        rw [hlen] at hlt
        have : d.length - j * per < per := by omega
        have hexp : (j + 1) * per = j * per + per := by ring
        omega
    have hk : d.length ≤ k * per := by
      have : (j + 1) * per ≤ k * per := Nat.mul_le_mul_right per hjk
      omega
    unfold feedBatchCount
    rw [if_pos hk]

/-- C6 witness: three sequences over two device slots give per-slot counts
`[2, 1]` summing to the batch size. -/
theorem device_partition_applied :
    (parallelCounts [[1], [2], [3]] 2).sum = ([[1], [2], [3]] : List TokSeq).length :=
  (device_partition_spec [[1], [2], [3]] 2 (by decide) (by decide)).2.1

/-! ### Single-corpus batcher lemmas (C8) -/

theorem makeBatches_getD (bs : Nat) (hbs : 1 ≤ bs) :
    ∀ (l : List TokSeq) (i : Nat), i < (makeBatches bs l).length →
      (makeBatches bs l).getD i [] = (l.drop (i * bs)).take bs
  | l, i, hi => by
      rw [makeBatches] at hi ⊢
      have h0 : ¬bs = 0 := by omega
      by_cases hl : l = []
      · simp [h0, hl] at hi
      · simp only [h0, hl, if_false] at hi ⊢
        match i with
        | 0 => simp
        | i + 1 =>
            simp only [List.length_cons, Nat.add_lt_add_iff_right] at hi
            rw [List.getD_cons_succ,
              makeBatches_getD bs hbs (l.drop bs) i hi, List.drop_drop]
            have : bs + i * bs = (i + 1) * bs := by ring
            rw [this]
  termination_by l => l.length
  decreasing_by
    have h2 : 0 < l.length := List.length_pos.mpr hl
    simp only [List.length_drop]
    omega

theorem makeBatches_flatten_aux (bs : Nat) (hbs : 1 ≤ bs) :
    ∀ (n : Nat) (l : List TokSeq), l.length ≤ n → (makeBatches bs l).flatten = l := by
  intro n
  induction n with
  | zero =>
      intro l hn
      have hl : l = [] := List.length_eq_zero.mp (Nat.le_zero.mp hn)
      subst hl
      rw [makeBatches]
      by_cases h : bs = 0 <;> simp [h]
  | succ n ih =>
      intro l hn
      rw [makeBatches]
      have h0 : ¬bs = 0 := by omega
      by_cases hl : l = []
      · simp [h0, hl]
      · have hpos : 0 < l.length := List.length_pos.mpr hl
        simp only [h0, hl, if_false, List.flatten_cons]
        rw [ih (l.drop bs) (by rw [List.length_drop]; omega), List.take_append_drop]

theorem makeBatches_flatten (bs : Nat) (hbs : 1 ≤ bs) (l : List TokSeq) :
    (makeBatches bs l).flatten = l :=
  makeBatches_flatten_aux bs hbs l.length l (Nat.le_refl _)

theorem makeBatches_length_aux (bs : Nat) (hbs : 1 ≤ bs) :
    ∀ (n : Nat) (l : List TokSeq), l.length ≤ n →
      (makeBatches bs l).length = (l.length + bs - 1) / bs := by
  have h0Aux : ¬bs = 0 := by omega
  intro n
  induction n with
  | zero =>
      intro l hn
      have hl : l = [] := List.length_eq_zero.mp (Nat.le_zero.mp hn)
      subst hl
      rw [makeBatches, if_neg h0Aux, if_pos rfl]
      simp only [List.length_nil]
      exact (Nat.div_eq_of_lt (by omega)).symm
  | succ n ih =>
      intro l hn
      rw [makeBatches]
      have h0 : ¬bs = 0 := by omega
      by_cases hl : l = []
      · subst hl
        rw [if_neg h0, if_pos rfl]
        simp only [List.length_nil]
        exact (Nat.div_eq_of_lt (by omega)).symm
      · have hpos : 0 < l.length := List.length_pos.mpr hl
        simp only [h0, hl, if_false, List.length_cons]
        rw [ih (l.drop bs) (by rw [List.length_drop]; omega), List.length_drop]
        rcases Nat.lt_or_ge l.length bs with h | h
        · have h1 : l.length - bs = 0 := by omega
          rw [h1]
          have h2 : (0 + bs - 1) / bs = 0 := Nat.div_eq_of_lt (by omega)
          have h3 : (l.length + bs - 1) / bs = 1 :=
            Nat.div_eq_of_lt_le (by omega) (by omega)
          rw [h2, h3]
        · have h4 : l.length - bs + bs - 1 = l.length - 1 := by omega
          have h5 : l.length + bs - 1 = (l.length - 1) + bs := by omega
          rw [h4, h5, Nat.add_div_right _ (by omega : 0 < bs)]

theorem makeBatches_length (bs : Nat) (hbs : 1 ≤ bs) (l : List TokSeq) :
    (makeBatches bs l).length = (l.length + bs - 1) / bs :=
  makeBatches_length_aux bs hbs l.length l (Nat.le_refl _)

/-- C8: for every reader and positive batch size, the single-corpus batcher
drains the reader fully (skipping `None` lines, stopping at the sentinel) and
returns exactly the contiguous chunks of the drained list in read order:
batch `i` is the slice `[i*bs : (i+1)*bs]` of the drained lines, the batches
flatten back to the drained list (no bucketing or shuffling), there are
`ceil(len/bs)` batches, and every batch except possibly the last has exactly
`bs` lines. -/
theorem single_corpus_order (stream : RdStream) (bs : Nat) (hbs : 1 ≤ bs) :
    (∀ i, i < (makeFeedingDataFrom bs stream).length →
      (makeFeedingDataFrom bs stream).getD i [] =
        ((drainReader stream).drop (i * bs)).take bs) ∧
    ((makeFeedingDataFrom bs stream).flatten = drainReader stream) ∧
    ((makeFeedingDataFrom bs stream).length = ((drainReader stream).length + bs - 1) / bs) ∧
    (∀ i, i + 1 < (makeFeedingDataFrom bs stream).length →
      ((makeFeedingDataFrom bs stream).getD i []).length = bs) := by
  refine ⟨fun i hi => makeBatches_getD bs hbs _ i hi,
    makeBatches_flatten bs hbs _, makeBatches_length bs hbs _, fun i hi => ?_⟩
  have hi' : i < (makeFeedingDataFrom bs stream).length := by omega
  simp only [makeFeedingDataFrom] at hi hi' ⊢
  rw [makeBatches_getD bs hbs _ i hi']
  rw [List.length_take, List.length_drop]
  have hlen := makeBatches_length bs hbs (drainReader stream)
  rw [hlen] at hi
  have hmul : (i + 2) * bs ≤ (drainReader stream).length + bs - 1 + 1 := by
    have := (Nat.le_div_iff_mul_le (by omega : 0 < bs)).mp (by omega : i + 2 ≤ ((drainReader stream).length + bs - 1) / bs)
    omega
  have hexp : (i + 2) * bs = i * bs + bs + bs := by ring
  omega

/-- C8 witness: a four-line reader with one malformed line, batch size 2. -/
theorem single_corpus_order_applied :
    (makeFeedingDataFrom 2 [some [1], none, some [2], some [3]]).getD 0 [] =
      ((drainReader [some [1], none, some [2], some [3]]).drop 0).take 2 :=
  (single_corpus_order [some [1], none, some [2], some [3]] 2 (by omega)).1 0
    (by simp [makeFeedingDataFrom, makeBatches, drainReader])

/-! ### Configuration errors (C9) -/

/-- Decides whether an `Except` result is the error case (a raised
`ValueError` in the Python code). -/
def isErr {ε α : Type} : Except ε α → Bool
  | .error _ => true
  | .ok _ => false

/-- C9: `ParallelTextInputter` construction raises exactly when both
`batch_size` and `batch_tokens_size` are `None` (supplying both is accepted),
and `make_feeding_data` with `in_memory=true` raises exactly when
`fill_full_batch` is set or `shuffle_every_epoch` is set (truthy); with
`in_memory=false` it never raises. -/
theorem config_rejection_spec (bs bts : Option Nat) (sh : Option String) (ff bk : Bool) :
    (isErr (mkParallelConfig bs bts sh ff bk) = true ↔ (bs = none ∧ bts = none)) ∧
    (∀ (cfg : IterConfig) (impl : List Nat → List Nat) (π : List Nat) (f l : RdStream),
      (isErr (makeFeedingData cfg impl π true f l) = true ↔
        (cfg.fillFullBatch = true ∨ optTruthy cfg.shuffleEveryEpoch = true)) ∧
      isErr (makeFeedingData cfg impl π false f l) = false) := by
  constructor
  · rcases bs with _ | b <;> rcases bts with _ | t <;>
      simp [mkParallelConfig, isErr]
  · intro cfg impl π f l
    constructor
    · unfold makeFeedingData
      by_cases hff : cfg.fillFullBatch <;>
        by_cases hsh : optTruthy cfg.shuffleEveryEpoch <;>
          simp [hff, hsh, isErr]
    · unfold makeFeedingData
      simp [isErr]

/-- C9 witness: omitting both sizing options is rejected; a streaming-only
option with `in_memory` is rejected; the plain streaming call succeeds. -/
theorem config_rejection_applied :
    isErr (mkParallelConfig none none none false false) = true ∧
    isErr (makeFeedingData ⟨2, none, none, true, true, 256⟩ argsortStable [] true [] []) = true ∧
    isErr (makeFeedingData ⟨2, none, none, true, true, 256⟩ argsortStable [] false [] []) = false :=
  ⟨(config_rejection_spec none none none false false).1.mpr ⟨rfl, rfl⟩,
   ((config_rejection_spec none none none false false).2 ⟨2, none, none, true, true, 256⟩
      argsortStable [] [] []).1.mpr (Or.inl rfl),
   ((config_rejection_spec none none none false false).2 ⟨2, none, none, true, true, 256⟩
      argsortStable [] [] []).2⟩

/-! ### Token-budget growth (C3) -/

/-- Growth condition of the token-budget loop at prefix size `k`: both prefix
sums are strictly below the budget, both margins to the budget are at least
20 tokens, and the feature length buffer has a further entry. -/
def growCond (T : Nat) (flens llens : List Nat) (k : Nat) : Prop :=
  (flens.take k).sum < T ∧ (llens.take k).sum < T ∧
    20 ≤ T - (flens.take k).sum ∧ 20 ≤ T - (llens.take k).sum ∧
    k < flens.length

instance (T : Nat) (flens llens : List Nat) (k : Nat) : Decidable (growCond T flens llens k) := by
  unfold growCond; infer_instance

theorem sum_take_succ (l : List Nat) (k : Nat) :
    (l.take (k + 1)).sum = (l.take k).sum + l.getD k 0 := by
  rw [List.take_succ, List.sum_append]
  cases h : l[k]? <;> simp [List.getD_eq_getElem?_getD, h]

theorem headD_drop (l : List Nat) (k : Nat) : (l.drop k).headD 0 = l.getD k 0 := by
  rw [List.headD_eq_head?_getD, List.head?_drop, List.getD_eq_getElem?_getD]

theorem growLoop_char (T : Nat) (flens llens : List Nat) :
    ∀ (fRest lRest : List Nat) (lbs : Nat),
      fRest = flens.drop lbs → lRest = llens.drop lbs →
      ∀ (sS sT : Nat), sS = (flens.take lbs).sum → sT = (llens.take lbs).sum →
      lbs ≤ growLoop T fRest lRest lbs sS sT ∧
      (∀ k, lbs ≤ k → k < growLoop T fRest lRest lbs sS sT → growCond T flens llens k) ∧
      ¬growCond T flens llens (growLoop T fRest lRest lbs sS sT) := by
  intro fRest
  induction fRest with
  | nil =>
      intro lRest lbs hf hl sS sT hsS hsT
      rw [growLoop]
      have hlen : flens.length ≤ lbs := List.drop_eq_nil_iff.mp hf.symm
      split
      · rename_i hbr
        refine ⟨Nat.le_refl _, fun k hk1 hk2 => absurd hk1 (by omega), fun hc => ?_⟩
        rcases hc with ⟨c1, c2, _, _, _⟩
        omega
      · split
        · rename_i hbr
          refine ⟨Nat.le_refl _, fun k hk1 hk2 => absurd hk1 (by omega), fun hc => ?_⟩
          rcases hc with ⟨_, _, c3, c4, _⟩
          omega
        · refine ⟨Nat.le_refl _, fun k hk1 hk2 => absurd hk1 (by omega), fun hc => ?_⟩
          rcases hc with ⟨_, _, _, _, c5⟩
          omega
  | cons f0 fR ih =>
      intro lRest lbs hf hl sS sT hsS hsT
      rw [growLoop]
      have hne : flens.drop lbs ≠ [] := by rw [← hf]; exact List.cons_ne_nil _ _
      have hlt : lbs < flens.length := by
        by_contra hcon
        exact hne (List.drop_eq_nil_of_le (by omega))
      split
      · rename_i hbr
        refine ⟨Nat.le_refl _, fun k hk1 hk2 => absurd hk1 (by omega), fun hc => ?_⟩
        rcases hc with ⟨c1, c2, _, _, _⟩
        omega
      · split
        · rename_i hbr
          refine ⟨Nat.le_refl _, fun k hk1 hk2 => absurd hk1 (by omega), fun hc => ?_⟩
          rcases hc with ⟨_, _, c3, c4, _⟩
          omega
        · rename_i hbr1 hbr2
          have hf0 : flens.getD lbs 0 = f0 := by
            rw [List.getD_eq_getElem?_getD, ← List.head?_drop, ← hf]
            rfl
          have hfR : fR = flens.drop (lbs + 1) := by
            rw [← List.tail_drop, ← hf]
            rfl
          have hlt' : lRest.tail = llens.drop (lbs + 1) := by
            rw [hl, List.tail_drop]
          have hsS' : sS + f0 = (flens.take (lbs + 1)).sum := by
            rw [sum_take_succ, hf0, hsS]
          have hsT' : sT + lRest.headD 0 = (llens.take (lbs + 1)).sum := by
            rw [hl, headD_drop, sum_take_succ, hsT]
          obtain ⟨ih1, ih2, ih3⟩ :=
            ih lRest.tail (lbs + 1) hfR hlt' (sS + f0) (sT + lRest.headD 0) hsS' hsT'
          refine ⟨by omega, fun k hk1 hk2 => ?_, ih3⟩
          rcases Nat.eq_or_lt_of_le hk1 with heq | hlt2
          · subst heq
            push_neg at hbr1 hbr2
            exact ⟨by omega, by omega, by omega, by omega, hlt⟩
          · exact ih2 k (by omega) hk2

/-- C3: with `batch_tokens_size = T` configured, the streaming batcher's
`local_batch_size` starts at `batch_size` and is extended one sequence at a
time exactly while both running prefix sums are strictly below `T`, both
margins `T - sum` are at least 20 tokens, and the buffer has further
sequences; the growth condition holds at every extension point and fails at
the final size, and (concretely) the last included sequence may push a sum
over the budget. -/
theorem token_budget_growth_spec (T B : Nat) (flens llens : List Nat) :
    (B ≤ localBatchSize B (some T) flens llens) ∧
    (∀ k, B ≤ k → k < localBatchSize B (some T) flens llens → growCond T flens llens k) ∧
    (¬growCond T flens llens (localBatchSize B (some T) flens llens)) ∧
    (localBatchSize 1 (some 100) [50, 60] [50, 60] = 2 ∧
      100 < (([50, 60] : List Nat).take 2).sum) := by
  obtain ⟨h1, h2, h3⟩ :=
    growLoop_char T flens llens (flens.drop B) (llens.drop B) B rfl rfl
      ((flens.take B).sum) ((llens.take B).sum) rfl rfl
  exact ⟨h1, h2, h3, by decide, by decide⟩

/-- C3 witness: the growth condition holds at the sole extension point of the
concrete run with budget 100 and lengths `[50, 60]`. -/
theorem token_budget_growth_applied : growCond 100 [50, 60] [50, 60] 1 :=
  (token_budget_growth_spec 100 1 [50, 60] [50, 60]).2.1 1 (Nat.le_refl 1) (by decide)

/-! ### Silent truncation to the shorter corpus (C7) -/

/-- The pairs both loops actually keep: walk the two streams in lockstep
(`zip` stops at the shorter one) and keep positions where both lines are
real. -/
def pairsOf (f l : RdStream) : List (TokSeq × TokSeq) :=
  (f.zip l).filterMap (fun p =>
    match p with
    | (some x, some y) => some (x, y)
    | _ => none)

theorem pairsOf_nil_left (l : RdStream) : pairsOf [] l = [] := by
  simp [pairsOf]

theorem pairsOf_nil_right (f : RdStream) : pairsOf f [] = [] := by
  simp [pairsOf]

theorem pairsOf_cons_ss (ss tt : TokSeq) (fR lR : RdStream) :
    pairsOf (some ss :: fR) (some tt :: lR) = (ss, tt) :: pairsOf fR lR := by
  simp [pairsOf]

theorem pairsOf_cons_none_left (b : Option TokSeq) (fR lR : RdStream) :
    pairsOf (none :: fR) (b :: lR) = pairsOf fR lR := by
  simp [pairsOf]

theorem pairsOf_cons_none_right (ss : TokSeq) (fR lR : RdStream) :
    pairsOf (some ss :: fR) (none :: lR) = pairsOf fR lR := by
  simp [pairsOf]

theorem smallDrain_eq : ∀ (f l : RdStream) (fbuf lbuf : List TokSeq),
    smallDrain f l fbuf lbuf =
      (fbuf ++ (pairsOf f l).map Prod.fst, lbuf ++ (pairsOf f l).map Prod.snd)
  | [], l, fbuf, lbuf => by
      cases l <;> simp [smallDrain, pairsOf_nil_left]
  | a :: fR, [], fbuf, lbuf => by
      cases a <;> simp [smallDrain, pairsOf_nil_right]
  | some ss :: fR, some tt :: lR, fbuf, lbuf => by
      rw [smallDrain, smallDrain_eq fR lR, pairsOf_cons_ss]
      simp
  | some ss :: fR, none :: lR, fbuf, lbuf => by
      rw [smallDrain, smallDrain_eq fR lR, pairsOf_cons_none_right]
  | none :: fR, some tt :: lR, fbuf, lbuf => by
      rw [smallDrain, smallDrain_eq fR lR, pairsOf_cons_none_left]
  | none :: fR, none :: lR, fbuf, lbuf => by
      rw [smallDrain, smallDrain_eq fR lR, pairsOf_cons_none_left]

theorem refill_pairsOf (c : Nat) : ∀ (f l : RdStream) (cnt : Nat) (fbuf lbuf : List TokSeq),
    cnt + (pairsOf f l).length ≤ c →
    (refill c f l cnt fbuf lbuf).2.2 =
      (fbuf ++ (pairsOf f l).map Prod.fst, lbuf ++ (pairsOf f l).map Prod.snd)
  | [], l, cnt, fbuf, lbuf, _ => by
      cases l <;> by_cases hc : cnt < c <;> simp [refill, hc, pairsOf_nil_left]
  | a :: fR, [], cnt, fbuf, lbuf, _ => by
      cases a <;> by_cases hc : cnt < c <;> simp [refill, hc, pairsOf_nil_right]
  | some ss :: fR, some tt :: lR, cnt, fbuf, lbuf, h => by
      rw [pairsOf_cons_ss] at h ⊢
      have hc : cnt < c := by simp at h; omega
      rw [refill, if_pos hc, refill_pairsOf c fR lR (cnt + 1) _ _ (by simp at h ⊢; omega)]
      simp
  | some ss :: fR, none :: lR, cnt, fbuf, lbuf, h => by
      rw [pairsOf_cons_none_right] at h ⊢
      by_cases hc : cnt < c
      · rw [refill, if_pos hc, refill_pairsOf c fR lR cnt _ _ h]
      · have h0 : (pairsOf fR lR).length = 0 := by omega
        rw [refill, if_neg hc, List.length_eq_zero.mp h0]
        simp
  | none :: fR, some tt :: lR, cnt, fbuf, lbuf, h => by
      rw [pairsOf_cons_none_left] at h ⊢
      by_cases hc : cnt < c
      · rw [refill, if_pos hc, refill_pairsOf c fR lR cnt _ _ h]
      · have h0 : (pairsOf fR lR).length = 0 := by omega
        rw [refill, if_neg hc, List.length_eq_zero.mp h0]
        simp
  | none :: fR, none :: lR, cnt, fbuf, lbuf, h => by
      rw [pairsOf_cons_none_left] at h ⊢
      by_cases hc : cnt < c
      · rw [refill, if_pos hc, refill_pairsOf c fR lR cnt _ _ h]
      · have h0 : (pairsOf fR lR).length = 0 := by omega
        rw [refill, if_neg hc, List.length_eq_zero.mp h0]
        simp

/-- C7: in both the streaming refill loop and the in-memory pair reader, an
end-of-stream sentinel from either reader stops reading for both: the kept
pairs are exactly the both-real positions of the zipped streams (`zip`
truncates at the shorter corpus, so the unpaired remainder of the longer
corpus is discarded), and both loops return normally — no error value exists
in their result type, so the mismatch is never signalled. -/
theorem silent_truncation_spec (f l : RdStream) (c : Nat)
    (hc : (pairsOf f l).length ≤ c) :
    ((refill c f l 0 [] []).2.2 =
      ((pairsOf f l).map Prod.fst, (pairsOf f l).map Prod.snd)) ∧
    (smallDrain f l [] [] =
      ((pairsOf f l).map Prod.fst, (pairsOf f l).map Prod.snd)) ∧
    (pairsOf f l =
      pairsOf (f.take (min f.length l.length)) (l.take (min f.length l.length))) := by
  refine ⟨?_, ?_, ?_⟩
  · simpa using refill_pairsOf c f l 0 [] [] (by omega)
  · simpa using smallDrain_eq f l [] []
  · unfold pairsOf
    rw [← List.zip_eq_zip_take_min]

/-- C7 witness: a features stream one real line longer than the labels
stream; the extra line is silently dropped by both loops. -/
theorem silent_truncation_applied :
    (refill 128 [some [1], none, some [2]] [some [5], some [6]] 0 [] []).2.2 =
      (([([1], [5])].map Prod.fst : List TokSeq), ([([1], [5])].map Prod.snd : List TokSeq)) := by
  have h := (silent_truncation_spec [some [1], none, some [2]] [some [5], some [6]] 128
    (by decide)).1
  simpa using h

/-! ### Streaming iterator state lemmas -/

theorem resetState_resets (cfg : IterConfig) (π : List Nat) (s : IterState) :
    (resetState cfg π s).resets = s.resets + 1 := by
  unfold resetState
  split <;> rfl

theorem resetState_endOfData (cfg : IterConfig) (π : List Nat) (s : IterState) :
    (resetState cfg π s).endOfData = s.endOfData := by
  unfold resetState
  split <;> rfl

theorem refillPhase_resets (cfg : IterConfig) (impl : List Nat → List Nat) (s : IterState) :
    (refillPhase cfg impl s).2.resets = s.resets := by
  simp only [refillPhase]
  split_ifs <;> rfl

theorem refillPhase_endOfData (cfg : IterConfig) (impl : List Nat → List Nat) (s : IterState) :
    (refillPhase cfg impl s).2.endOfData = s.endOfData := by
  simp only [refillPhase]
  split_ifs <;> rfl

theorem nextBatch_endOfData_false (cfg : IterConfig) (impl : List Nat → List Nat)
    (π : List Nat) (s : IterState) : (nextBatch cfg impl π s).2.endOfData = false := by
  simp only [nextBatch]
  split_ifs with h1 <;>
    simp_all [resetState_endOfData, refillPhase_endOfData]

theorem nextBatch_resets (cfg : IterConfig) (impl : List Nat → List Nat)
    (π : List Nat) (s : IterState) :
    (nextBatch cfg impl π s).2.resets =
      s.resets + (if (nextBatch cfg impl π s).1 = none then 1 else 0) := by
  simp only [nextBatch]
  split_ifs <;> simp_all [resetState_resets, refillPhase_resets]

/-- C10: constructing the streaming iterator immediately invokes reset on
both readers — applying the linked shuffle permutation to both when
`shuffle_every_epoch` is truthy, rewinding otherwise — before any batch is
pulled (reset count 1, buffers empty, flag clear), and every later pull
invokes reset exactly once more if and only if it signals end-of-sequence,
so reset runs once at construction plus once per completed epoch. -/
theorem construction_invokes_reset (cfg : IterConfig) (impl : List Nat → List Nat)
    (π π' : List Nat) (f l : RdStream) :
    ((initIterState cfg π f l).resets = 1) ∧
    ((initIterState cfg π f l).featBuf = [] ∧ (initIterState cfg π f l).labBuf = []) ∧
    ((initIterState cfg π f l).endOfData = false) ∧
    ((initIterState cfg π f l).featRem =
      (if optTruthy cfg.shuffleEveryEpoch then permuteBy π f else f)) ∧
    ((initIterState cfg π f l).labRem =
      (if optTruthy cfg.shuffleEveryEpoch then permuteBy π l else l)) ∧
    (∀ s : IterState, (nextBatch cfg impl π' s).2.resets =
      s.resets + (if (nextBatch cfg impl π' s).1 = none then 1 else 0)) := by
  refine ⟨?_, ⟨?_, ?_⟩, ?_, ?_, ?_, fun s => nextBatch_resets cfg impl π' s⟩ <;>
    · unfold initIterState resetState
      split_ifs <;> rfl

/-- C10 witness: the reset-counting conjunct applied to a concrete pull. -/
theorem construction_invokes_reset_applied :
    (nextBatch ⟨1, none, none, false, true, 128⟩ argsortStable []
        (initIterState ⟨1, none, none, false, true, 128⟩ [] [] [])).2.resets =
      (initIterState ⟨1, none, none, false, true, 128⟩ [] [] []).resets +
        (if (nextBatch ⟨1, none, none, false, true, 128⟩ argsortStable []
              (initIterState ⟨1, none, none, false, true, 128⟩ [] [] [])).1 = none
          then 1 else 0) :=
  (construction_invokes_reset ⟨1, none, none, false, true, 128⟩ argsortStable [] [] [] []).2.2.2.2.2
    (initIterState ⟨1, none, none, false, true, 128⟩ [] [] [])

/-! ### Epoch boundary protocol (C2) -/

/-- C2 counterexample: pulling on empty corpora makes the refill attempt
yield zero sequences, yet the `end_of_data` flag is NOT set to true — the
batcher signals end-of-sequence (`none` = `StopIteration`) in that very same
pull, with the flag false before and after.  (In the code, `_end_of_data` is
only ever assigned `False`: lines 333, 359, 377, 388 and 418.) -/
theorem epoch_flag_never_set :
    (nextBatch ⟨1, none, none, false, true, 128⟩ argsortStable []
        (initIterState ⟨1, none, none, false, true, 128⟩ [] [] [])).2.endOfData = false ∧
    (nextBatch ⟨1, none, none, false, true, 128⟩ argsortStable []
        (initIterState ⟨1, none, none, false, true, 128⟩ [] [] [])).1 = none := by
  constructor <;> rfl

theorem pairsOf_eq_nil {f l : RdStream}
    (hzip : ∀ p ∈ f.zip l, p.1 = none ∨ p.2 = none) : pairsOf f l = [] := by
  unfold pairsOf
  rw [List.filterMap_eq_nil_iff]
  intro p hp
  rcases p with ⟨_ | x, _ | y⟩ <;> simp
  rcases hzip _ hp with h | h <;> simp at h

theorem refillPhase_stop (cfg : IterConfig) (impl : List Nat → List Nat) (s : IterState)
    (hFB : s.featBuf = []) (hLB : s.labBuf = [])
    (hnil : pairsOf s.featRem s.labRem = [])
    (hbs : s.featBuf.length < cfg.batchSize) :
    (refillPhase cfg impl s).1 = true := by
  have hrf := refill_pairsOf cfg.cacheSize s.featRem s.labRem 0 [] [] (by rw [hnil]; simp)
  rw [hnil] at hrf
  simp only [List.map_nil, List.append_nil] at hrf
  have h1 : (refill cfg.cacheSize s.featRem s.labRem 0 [] []).2.2.1 = [] := by rw [hrf]
  have hbs0 : 0 < cfg.batchSize := by simpa [hFB] using hbs
  simp only [refillPhase, hFB, hLB, List.length_nil, if_pos hbs0, h1]
  simp

/-- C2 (amended): the `end_of_data` flag never becomes true — after every
pull it is false; in the pull whose refill attempt yields zero new sequences
(empty buffers and no both-real pair left in the streams), and likewise in
the pull where `fill_full_batch` forbids a short final batch, the batcher
resets the readers and signals end-of-sequence in that same pull (reset
count increments by one: the epoch boundary is surfaced exactly once). -/
theorem epoch_boundary_same_pull (cfg : IterConfig) (impl : List Nat → List Nat)
    (π : List Nat) (s : IterState) :
    ((nextBatch cfg impl π s).2.endOfData = false) ∧
    (s.endOfData = false → s.featBuf = [] → s.labBuf = [] →
      (∀ p ∈ s.featRem.zip s.labRem, p.1 = none ∨ p.2 = none) →
      (nextBatch cfg impl π s).1 = none ∧
        (nextBatch cfg impl π s).2.resets = s.resets + 1) ∧
    (cfg.fillFullBatch = true → s.endOfData = false →
      (refillPhase cfg impl s).1 = false →
      (refillPhase cfg impl s).2.featBuf.length < cfg.batchSize →
      (nextBatch cfg impl π s).1 = none ∧
        (nextBatch cfg impl π s).2.resets = s.resets + 1) := by
  refine ⟨nextBatch_endOfData_false cfg impl π s, ?_, ?_⟩
  · intro hE hFB hLB hzip
    have hnil : pairsOf s.featRem s.labRem = [] := pairsOf_eq_nil hzip
    have hnone : (nextBatch cfg impl π s).1 = none := by
      by_cases hbs : s.featBuf.length < cfg.batchSize
      · have hr1 := refillPhase_stop cfg impl s hFB hLB hnil hbs
        simp only [nextBatch, hE, hr1]
        simp
      · have hrp : refillPhase cfg impl s = (false, s) := by
          simp only [refillPhase, if_neg hbs]
        simp only [nextBatch, hE, hrp]
        split_ifs <;> simp_all
    refine ⟨hnone, ?_⟩
    rw [nextBatch_resets, hnone]
    simp
  · intro hff hE hr1 hshort
    have hnone : (nextBatch cfg impl π s).1 = none := by
      simp only [nextBatch, hE, hr1]
      simp only [Bool.false_eq_true, if_false]
      rw [if_pos ⟨by simp [hff], hshort⟩]
    refine ⟨hnone, ?_⟩
    rw [nextBatch_resets, hnone]
    simp

/-- C2 witness: the amended theorem applied to a state whose streams hold no
both-real pair (every position has a skipped line on one side). -/
theorem epoch_boundary_same_pull_applied :
    (nextBatch ⟨1, none, none, false, true, 128⟩ argsortStable []
        (initIterState ⟨1, none, none, false, true, 128⟩ []
          [none, some [2]] [some [3], none])).1 = none ∧
    (nextBatch ⟨1, none, none, false, true, 128⟩ argsortStable []
        (initIterState ⟨1, none, none, false, true, 128⟩ []
          [none, some [2]] [some [3], none])).2.resets =
      (initIterState ⟨1, none, none, false, true, 128⟩ []
          [none, some [2]] [some [3], none]).resets + 1 :=
  (epoch_boundary_same_pull ⟨1, none, none, false, true, 128⟩ argsortStable []
      (initIterState ⟨1, none, none, false, true, 128⟩ [] [none, some [2]] [some [3], none])).2.1
    rfl rfl rfl (by decide)

/-! ### Full-batch guarantee (C5) -/

theorem refill_len_eq (c : Nat) : ∀ (f l : RdStream) (cnt : Nat) (fbuf lbuf : List TokSeq),
    fbuf.length = lbuf.length →
    ((refill c f l cnt fbuf lbuf).2.2.1).length = ((refill c f l cnt fbuf lbuf).2.2.2).length
  | [], l, cnt, fbuf, lbuf, h => by
      cases l <;> by_cases hc : cnt < c <;> simp [refill, hc, h]
  | a :: fR, [], cnt, fbuf, lbuf, h => by
      cases a <;> by_cases hc : cnt < c <;> simp [refill, hc, h]
  | some ss :: fR, some tt :: lR, cnt, fbuf, lbuf, h => by
      by_cases hc : cnt < c
      · rw [refill, if_pos hc]
        exact refill_len_eq c fR lR (cnt + 1) _ _ (by simp [h])
      · simp [refill, hc, h]
  | some ss :: fR, none :: lR, cnt, fbuf, lbuf, h => by
      by_cases hc : cnt < c
      · rw [refill, if_pos hc]
        exact refill_len_eq c fR lR cnt _ _ h
      · simp [refill, hc, h]
  | none :: fR, some tt :: lR, cnt, fbuf, lbuf, h => by
      by_cases hc : cnt < c
      · rw [refill, if_pos hc]
        exact refill_len_eq c fR lR cnt _ _ h
      · simp [refill, hc, h]
  | none :: fR, none :: lR, cnt, fbuf, lbuf, h => by
      by_cases hc : cnt < c
      · rw [refill, if_pos hc]
        exact refill_len_eq c fR lR cnt _ _ h
      · simp [refill, hc, h]

theorem refillPhase_len_eq (cfg : IterConfig) (impl : List Nat → List Nat) (s : IterState)
    (h : s.featBuf.length = s.labBuf.length) :
    (refillPhase cfg impl s).2.featBuf.length = (refillPhase cfg impl s).2.labBuf.length := by
  simp only [refillPhase]
  split_ifs with h1 h2 h3
  · exact refill_len_eq cfg.cacheSize s.featRem s.labRem s.featBuf.length s.featBuf s.labBuf h
  · simp [do_bucketing, applyIdx]
  · exact refill_len_eq cfg.cacheSize s.featRem s.labRem s.featBuf.length s.featBuf s.labBuf h
  · exact h

theorem growLoop_ge (T : Nat) : ∀ (fRest lRest : List Nat) (lbs sS sT : Nat),
    lbs ≤ growLoop T fRest lRest lbs sS sT
  | [], lRest, lbs, sS, sT => by
      rw [growLoop]
      split_ifs <;> simp
  | f0 :: fR, lRest, lbs, sS, sT => by
      rw [growLoop]
      split_ifs with h1 h2
      · exact Nat.le_refl _
      · exact Nat.le_refl _
      · exact Nat.le_trans (Nat.le_succ lbs)
          (growLoop_ge T fR lRest.tail (lbs + 1) (sS + f0) (sT + lRest.headD 0))

theorem localBatchSize_ge (B : Nat) (bts : Option Nat) (flens llens : List Nat) :
    B ≤ localBatchSize B bts flens llens := by
  cases bts with
  | none => exact Nat.le_refl _
  | some T => exact growLoop_ge T (flens.drop B) (llens.drop B) B _ _

/-- C5: with `fill_full_batch = true`, every batch the streaming batcher
emits holds at least `batch_size` sequence pairs — for every configuration,
every state with the asserted equal-length buffers (line 363), and every
pull: whenever the cache after refill holds fewer than `batch_size` pairs
the pull ends the epoch instead of emitting a short batch. -/
theorem full_batch_min_size (cfg : IterConfig) (impl : List Nat → List Nat)
    (π : List Nat) (s : IterState) (fs ls : List TokSeq)
    (hff : cfg.fillFullBatch = true)
    (hlen : s.featBuf.length = s.labBuf.length)
    (he : (nextBatch cfg impl π s).1 = some (fs, ls)) :
    cfg.batchSize ≤ fs.length ∧ cfg.batchSize ≤ ls.length := by
  have hlen1 := refillPhase_len_eq cfg impl s hlen
  by_cases hE : s.endOfData = true
  · rw [nextBatch, if_pos hE] at he
    exact absurd he (by simp)
  · simp only [nextBatch, if_neg hE] at he
    by_cases hr : (refillPhase cfg impl s).1 = true
    · rw [if_pos hr] at he
      exact absurd he (by simp)
    · rw [if_neg hr] at he
      by_cases hsh : (refillPhase cfg impl s).2.featBuf.length < cfg.batchSize
      · rw [if_pos ⟨by simp [hff], hsh⟩] at he
        exact absurd he (by simp)
      · rw [if_neg (fun hc => hsh hc.2)] at he
        split_ifs at he
        · simp only [Option.some.injEq, Prod.mk.injEq] at he
          obtain ⟨hfs, hls⟩ := he
          push_neg at hsh
          have hlbs := localBatchSize_ge cfg.batchSize cfg.batchTokensSize
            (refillPhase cfg impl s).2.featLenBuf (refillPhase cfg impl s).2.labLenBuf
          refine ⟨?_, ?_⟩
          · rw [← hfs, List.length_take]
            exact le_min hlbs hsh
          · rw [← hls, List.length_take]
            exact le_min hlbs (hlen1 ▸ hsh)
        · simp only [Option.some.injEq, Prod.mk.injEq] at he
          obtain ⟨hfs, hls⟩ := he
          push_neg at hsh
          have hlbs := localBatchSize_ge cfg.batchSize cfg.batchTokensSize
            (refillPhase cfg impl s).2.featLenBuf (refillPhase cfg impl s).2.labLenBuf
          refine ⟨?_, ?_⟩
          · rw [← hfs, List.length_take]
            exact le_min hlbs hsh
          · rw [← hls, List.length_take]
            exact le_min hlbs (hlen1 ▸ hsh)

/-- C5 witness: batch size 2 over a two-pair corpus with
`fill_full_batch = true` emits a full batch of 2. -/
theorem full_batch_min_size_applied :
    2 ≤ ([[1], [2]] : List TokSeq).length ∧ 2 ≤ ([[3], [4]] : List TokSeq).length :=
  full_batch_min_size ⟨2, none, none, true, false, 256⟩ argsortStable []
    (initIterState ⟨2, none, none, true, false, 256⟩ [] [some [1], some [2]]
      [some [3], some [4]])
    [[1], [2]] [[3], [4]] rfl rfl (by decide)

/-! ### Pairing invariant (C1) -/

/-- The sequences `x` and `y` were originally paired: some position of the
source corpora holds the real line `x` on the features side and the real
line `y` on the labels side. -/
def pairedAt (F L : RdStream) (x y : TokSeq) : Prop :=
  ∃ k : Nat, F[k]? = some (some x) ∧ L[k]? = some (some y)

/-- Two reader streams are index-linked to the source corpora: real lines
sitting at equal positions form an originally-paired couple. -/
def linkedStreams (F L fR lR : RdStream) : Prop :=
  ∀ (k : Nat) (x y : TokSeq),
    fR[k]? = some (some x) → lR[k]? = some (some y) → pairedAt F L x y

theorem linkedStreams_self (F L : RdStream) : linkedStreams F L F L :=
  fun k _ _ hf hl => ⟨k, hf, hl⟩

theorem linkedStreams_nil_left (F L l : RdStream) : linkedStreams F L [] l := by
  intro k x y hf
  simp at hf

theorem linkedStreams_nil_right (F L f : RdStream) : linkedStreams F L f [] := by
  intro k x y hf hl
  simp at hl

theorem linkedStreams_permute {F L fB lB : RdStream} (π : List Nat)
    (h : linkedStreams F L fB lB) :
    linkedStreams F L (permuteBy π fB) (permuteBy π lB) := by
  intro k x y hf hl
  unfold permuteBy at hf hl
  rw [List.getElem?_map] at hf hl
  cases hπ : π[k]? with
  | none => rw [hπ] at hf; simp at hf
  | some j =>
      rw [hπ] at hf hl
      simp only [Option.map_some'] at hf hl
      have hf' : fB[j]? = some (some x) := by
        rw [List.getD_eq_getElem?_getD] at hf
        cases hj : fB[j]? with
        | none => rw [hj] at hf; simp at hf
        | some v => rw [hj] at hf; simp at hf; exact congrArg some hf
      have hl' : lB[j]? = some (some y) := by
        rw [List.getD_eq_getElem?_getD] at hl
        cases hj : lB[j]? with
        | none => rw [hj] at hl; simp at hl
        | some v => rw [hj] at hl; simp at hl; exact congrArg some hl
      exact h j x y hf' hl'

theorem linkedStreams_tail {F L : RdStream} {a b : Option TokSeq} {fR lR : RdStream}
    (h : linkedStreams F L (a :: fR) (b :: lR)) : linkedStreams F L fR lR := by
  intro k x y hf hl
  exact h (k + 1) x y (by simpa using hf) (by simpa using hl)

/-- Invariant tying an iterator state to the source corpora: the reader
bases and the unread suffixes are index-linked, and the two buffers are
pointwise originally-paired (which forces equal buffer lengths, the
assertion of line 363). -/
structure GoodState (F L : RdStream) (s : IterState) : Prop where
  base : linkedStreams F L s.featBase s.labBase
  rem : linkedStreams F L s.featRem s.labRem
  buf : List.Forall₂ (pairedAt F L) s.featBuf s.labBuf

theorem resetState_good {F L : RdStream} (cfg : IterConfig) (π : List Nat) {s : IterState}
    (h : GoodState F L s) : GoodState F L (resetState cfg π s) := by
  unfold resetState
  split
  · exact ⟨linkedStreams_permute π h.base, linkedStreams_permute π h.base, h.buf⟩
  · exact ⟨h.base, h.base, h.buf⟩

theorem refill_good (F L : RdStream) (c : Nat) :
    ∀ (f l : RdStream) (cnt : Nat) (fbuf lbuf : List TokSeq),
      linkedStreams F L f l → List.Forall₂ (pairedAt F L) fbuf lbuf →
      linkedStreams F L (refill c f l cnt fbuf lbuf).1 (refill c f l cnt fbuf lbuf).2.1 ∧
      List.Forall₂ (pairedAt F L)
        (refill c f l cnt fbuf lbuf).2.2.1 (refill c f l cnt fbuf lbuf).2.2.2
  | [], l, cnt, fbuf, lbuf, hlk, hbuf => by
      cases l <;> by_cases hc : cnt < c <;>
        simp only [refill, hc, if_true, if_false] <;>
        exact ⟨linkedStreams_nil_left F L _, hbuf⟩
  | a :: fR, [], cnt, fbuf, lbuf, hlk, hbuf => by
      by_cases hc : cnt < c <;> cases a <;>
        simp only [refill, hc, if_true, if_false] <;>
        exact ⟨linkedStreams_nil_right F L _, hbuf⟩
  | some ss :: fR, some tt :: lR, cnt, fbuf, lbuf, hlk, hbuf => by
      by_cases hc : cnt < c
      · rw [refill, if_pos hc]
        refine refill_good F L c fR lR (cnt + 1) _ _ (linkedStreams_tail hlk) ?_
        refine List.rel_append hbuf ?_
        exact List.Forall₂.cons (hlk 0 ss tt (by simp) (by simp)) List.Forall₂.nil
      · rw [refill, if_neg hc]
        exact ⟨hlk, hbuf⟩
  | some ss :: fR, none :: lR, cnt, fbuf, lbuf, hlk, hbuf => by
      by_cases hc : cnt < c
      · rw [refill, if_pos hc]
        exact refill_good F L c fR lR cnt _ _ (linkedStreams_tail hlk) hbuf
      · rw [refill, if_neg hc]
        exact ⟨hlk, hbuf⟩
  | none :: fR, some tt :: lR, cnt, fbuf, lbuf, hlk, hbuf => by
      by_cases hc : cnt < c
      · rw [refill, if_pos hc]
        exact refill_good F L c fR lR cnt _ _ (linkedStreams_tail hlk) hbuf
      · rw [refill, if_neg hc]
        exact ⟨hlk, hbuf⟩
  | none :: fR, none :: lR, cnt, fbuf, lbuf, hlk, hbuf => by
      by_cases hc : cnt < c
      · rw [refill, if_pos hc]
        exact refill_good F L c fR lR cnt _ _ (linkedStreams_tail hlk) hbuf
      · rw [refill, if_neg hc]
        exact ⟨hlk, hbuf⟩

theorem forall₂_getD {R : TokSeq → TokSeq → Prop} {as bs : List TokSeq}
    (h : List.Forall₂ R as bs) (i : Nat) (hi : i < as.length) :
    R (as.getD i []) (bs.getD i []) := by
  have hib : i < bs.length := by rw [← h.length_eq]; exact hi
  rw [List.getD_eq_getElem?_getD, List.getD_eq_getElem?_getD,
    List.getElem?_eq_getElem hi, List.getElem?_eq_getElem hib]
  simp only [Option.getD_some]
  have := (List.forall₂_iff_get.mp h).2 i hi hib
  simpa using this

theorem forall₂_applyIdx {F L : RdStream} {fbuf lbuf : List TokSeq}
    (h : List.Forall₂ (pairedAt F L) fbuf lbuf) (tidx : List Nat)
    (hin : ∀ i ∈ tidx, i < fbuf.length) :
    List.Forall₂ (pairedAt F L) (applyIdx tidx fbuf) (applyIdx tidx lbuf) := by
  unfold applyIdx
  rw [List.forall₂_map_left_iff, List.forall₂_map_right_iff, List.forall₂_same]
  intro i hi
  exact forall₂_getD h i (hin i hi)

theorem refillPhase_good {F L : RdStream} (cfg : IterConfig) (impl : List Nat → List Nat)
    (himpl : ∀ tlen, sortsLen tlen (impl tlen)) {s : IterState}
    (h : GoodState F L s) : GoodState F L (refillPhase cfg impl s).2 := by
  have hrf := refill_good F L cfg.cacheSize s.featRem s.labRem s.featBuf.length
    s.featBuf s.labBuf h.rem h.buf
  simp only [refillPhase]
  split_ifs with h1 h2 h3
  · exact ⟨h.base, hrf.1, hrf.2⟩
  · refine ⟨h.base, hrf.1, ?_⟩
    have hin : ∀ i ∈ impl (((refill cfg.cacheSize s.featRem s.labRem s.featBuf.length
        s.featBuf s.labBuf).2.2.2).map List.length),
        i < ((refill cfg.cacheSize s.featRem s.labRem s.featBuf.length
          s.featBuf s.labBuf).2.2.1).length := by
      intro i hi
      have hlt := sortsLen_mem_lt (himpl _) i hi
      rw [List.length_map] at hlt
      rw [hrf.2.length_eq]
      exact hlt
    have hb := forall₂_applyIdx hrf.2 _ hin
    simpa [do_bucketing] using hb
  · exact ⟨h.base, hrf.1, hrf.2⟩
  · exact h

set_option linter.unusedTactic false in
theorem nextBatch_good {F L : RdStream} (cfg : IterConfig) (impl : List Nat → List Nat)
    (himpl : ∀ tlen, sortsLen tlen (impl tlen)) (π : List Nat) {s : IterState}
    (h : GoodState F L s) :
    GoodState F L (nextBatch cfg impl π s).2 ∧
    (∀ fs ls, (nextBatch cfg impl π s).1 = some (fs, ls) →
      List.Forall₂ (pairedAt F L) fs ls) := by
  have hrp := refillPhase_good cfg impl himpl h
  simp only [nextBatch]
  split_ifs
  all_goals refine ⟨?_, fun fs ls he => ?_⟩
  all_goals first
    | exact resetState_good cfg π ⟨h.base, h.rem, h.buf⟩
    | exact resetState_good cfg π ⟨hrp.base, hrp.rem, hrp.buf⟩
    | exact resetState_good cfg π ⟨hrp.base, hrp.rem, List.Forall₂.nil⟩
    | exact resetState_good cfg π ⟨hrp.base, hrp.rem, List.forall₂_drop _ hrp.buf⟩
    | exact ⟨hrp.base, hrp.rem, List.Forall₂.nil⟩
    | exact ⟨hrp.base, hrp.rem, List.forall₂_drop _ hrp.buf⟩
    | (simp only [Option.some.injEq, Prod.mk.injEq] at he
       obtain ⟨hfs, hls⟩ := he
       rw [← hfs, ← hls]
       exact List.forall₂_take _ hrp.buf)
    | (exfalso
       simp at he
       done)

theorem initIterState_good (cfg : IterConfig) (π : List Nat) (F L : RdStream) :
    GoodState F L (initIterState cfg π F L) := by
  unfold initIterState
  exact resetState_good cfg π
    ⟨linkedStreams_self F L, linkedStreams_self F L, List.Forall₂.nil⟩

theorem reaches_good {F L : RdStream} {cfg : IterConfig} {impl : List Nat → List Nat}
    (himpl : ∀ tlen, sortsLen tlen (impl tlen)) {s s' : IterState}
    (hr : Reaches cfg impl s s') (h : GoodState F L s) : GoodState F L s' := by
  induction hr with
  | refl => exact h
  | step s2 π hr ih => exact (nextBatch_good cfg impl himpl π ih).1

theorem pairedAt_cons {fR lR : RdStream} {a b : Option TokSeq} {x y : TokSeq}
    (h : pairedAt fR lR x y) : pairedAt (a :: fR) (b :: lR) x y := by
  obtain ⟨k, hf, hl⟩ := h
  exact ⟨k + 1, by simpa using hf, by simpa using hl⟩

theorem pairsOf_paired : ∀ (f l : RdStream) (p : TokSeq × TokSeq),
    p ∈ pairsOf f l → pairedAt f l p.1 p.2
  | [], l, p, hp => by rw [pairsOf_nil_left] at hp; simp at hp
  | a :: fR, [], p, hp => by rw [pairsOf_nil_right] at hp; simp at hp
  | some ss :: fR, some tt :: lR, p, hp => by
      rw [pairsOf_cons_ss] at hp
      rcases List.mem_cons.mp hp with h | h
      · subst h
        exact ⟨0, by simp, by simp⟩
      · exact pairedAt_cons (pairsOf_paired fR lR p h)
  | some ss :: fR, none :: lR, p, hp => by
      rw [pairsOf_cons_none_right] at hp
      exact pairedAt_cons (pairsOf_paired fR lR p hp)
  | none :: fR, b :: lR, p, hp => by
      rw [pairsOf_cons_none_left] at hp
      exact pairedAt_cons (pairsOf_paired fR lR p hp)

theorem chunkBatches_paired_aux {R : TokSeq → TokSeq → Prop} (bs : Nat) :
    ∀ (n : Nat) (ss tt : List TokSeq), ss.length ≤ n → List.Forall₂ R ss tt →
      ∀ b ∈ chunkBatches bs ss tt, List.Forall₂ R b.1 b.2 := by
  intro n
  induction n with
  | zero =>
      intro ss tt hn hf b hb
      have hss : ss = [] := List.length_eq_zero.mp (Nat.le_zero.mp hn)
      subst hss
      rw [chunkBatches] at hb
      split_ifs at hb with ha hcontra
      · simp at hb
      · simp at hb
      · exact absurd rfl hcontra
  | succ n ih =>
      intro ss tt hn hf b hb
      rw [chunkBatches] at hb
      split_ifs at hb with h0 h1
      · simp at hb
      · simp at hb
      · rcases List.mem_cons.mp hb with h | h
        · subst h
          exact List.forall₂_take _ hf
        · refine ih (ss.drop bs) (tt.drop bs) ?_ (List.forall₂_drop _ hf) b h
          rw [List.length_drop]
          have hpos : 0 < ss.length := List.length_pos.mpr h1
          omega

theorem chunkBatches_paired {R : TokSeq → TokSeq → Prop} (bs : Nat)
    (ss tt : List TokSeq) (hf : List.Forall₂ R ss tt) :
    ∀ b ∈ chunkBatches bs ss tt, List.Forall₂ R b.1 b.2 :=
  chunkBatches_paired_aux bs ss.length ss tt (Nat.le_refl _) hf

theorem smallDrain_paired (F L : RdStream) :
    List.Forall₂ (pairedAt F L) (smallDrain F L [] []).1 (smallDrain F L [] []).2 := by
  rw [smallDrain_eq]
  simp only [List.nil_append]
  rw [List.forall₂_map_left_iff, List.forall₂_map_right_iff, List.forall₂_same]
  intro p hp
  exact pairsOf_paired F L p hp

theorem smallParallelData_paired (cfg : IterConfig) (impl : List Nat → List Nat)
    (himpl : ∀ tlen, sortsLen tlen (impl tlen)) (F L : RdStream) :
    ∀ b ∈ smallParallelData cfg impl F L, List.Forall₂ (pairedAt F L) b.1 b.2 := by
  intro b hb
  have hd := smallDrain_paired F L
  simp only [smallParallelData] at hb
  split_ifs at hb with hbk
  · have hin : ∀ i ∈ impl ((smallDrain F L [] []).2.map List.length),
        i < (smallDrain F L [] []).1.length := by
      intro i hi
      have hlt := sortsLen_mem_lt (himpl _) i hi
      rw [List.length_map] at hlt
      rw [hd.length_eq]
      exact hlt
    have hfa := forall₂_applyIdx hd _ hin
    refine chunkBatches_paired cfg.batchSize _ _ ?_ b hb
    simpa [do_bucketing] using hfa
  · refine chunkBatches_paired cfg.batchSize _ _ ?_ b hb
    simpa using hd

/-- C1: for every configuration of the pair batchers — streaming (any
batch-size or token-budget policy, with or without bucketing, full-batch
filling and epoch shuffling) or in-memory — and for every batch they emit,
the feature sequence at position `i` of the batch is the sequence originally
paired with the label sequence at position `i` in the source corpora: no
refill, bucketing sort, slicing, or linked-permutation reshuffle breaks the
pairing. -/
theorem pairing_invariant_spec :
    (∀ (cfg : IterConfig) (impl : List Nat → List Nat),
      (∀ tlen, sortsLen tlen (impl tlen)) →
      ∀ (F L : RdStream) (π0 π : List Nat) (s' : IterState) (fs ls : List TokSeq),
        Reaches cfg impl (initIterState cfg π0 F L) s' →
        (nextBatch cfg impl π s').1 = some (fs, ls) →
        ∀ i, i < fs.length → pairedAt F L (fs.getD i []) (ls.getD i [])) ∧
    (∀ (cfg : IterConfig) (impl : List Nat → List Nat),
      (∀ tlen, sortsLen tlen (impl tlen)) →
      ∀ (F L : RdStream) (b : List TokSeq × List TokSeq),
        b ∈ smallParallelData cfg impl F L →
        ∀ i, i < b.1.length → pairedAt F L (b.1.getD i []) (b.2.getD i [])) := by
  constructor
  · intro cfg impl himpl F L π0 π s' fs ls hr he i hi
    have hgood := reaches_good himpl hr (initIterState_good cfg π0 F L)
    have hfa := (nextBatch_good cfg impl himpl π hgood).2 fs ls he
    exact forall₂_getD hfa i hi
  · intro cfg impl himpl F L b hb i hi
    exact forall₂_getD (smallParallelData_paired cfg impl himpl F L b hb) i hi

/-- C1 witness: the streaming half applied to one-line corpora; the sole
emitted pair is the original pair. -/
theorem pairing_invariant_applied : pairedAt [some [7]] [some [9]] [7] [9] := by
  have h := pairing_invariant_spec.1 ⟨1, none, none, false, true, 128⟩ argsortStable
    argsortStable_sortsLen [some [7]] [some [9]] [] []
    (initIterState ⟨1, none, none, false, true, 128⟩ [] [some [7]] [some [9]])
    [[7]] [[9]] (Reaches.refl _) (by decide) 0 (by decide)
  simpa using h
